import Mathlib

set_option maxHeartbeats 2000000
set_option maxRecDepth 16384

/-!
Verification of the torrent search service in src/app.py.

The development embeds the pure core of the Flask service: the query
normalization pipeline of the search route, the result enrichment pass
over the raw backend batch (id and indexer defaults, magnet resolution,
tracker augmentation), the strict post-fetch category filter with its
exception fallback, and the route-level query validation. Strings are
modelled as Lean strings; the regular expressions of the source are
unfolded into explicit character passes; the Python container values
that matter (missing keys, null, lists, ints, non-numeric strings,
non-dict records) are explicit constructors.
-/

/-! ## Character classes (the character sets of the regexes in src/app.py) -/

/-- A code point that survives encode with ascii and ignore in step 1. -/
def isAsciiCh (c : Char) : Bool := c.toNat < 128

/-- The separator class of the regex in step 2 of the normalizer: dot, underscore, hyphen. -/
def isSep (c : Char) : Bool := c == '.' || c == '_' || c == '-'

/-- Whitespace as Python treats it in the regex class and in strip, restricted to the
code points that can reach these passes. -/
def isPySpace (c : Char) : Bool :=
  c == ' ' || c == '\t' || c == '\n' || c == '\r' || c.toNat == 11 || c.toNat == 12 ||
  (28 ≤ c.toNat && c.toNat ≤ 31) || c.toNat == 133

/-- The word class of the regex in step 3: alphanumerics and underscore.
Step 3 always runs after step 1, so only ASCII code points reach it. -/
def isWordCh (c : Char) : Bool := c.isAlphanum || c == '_'

/-- The keep set of step 3 in the source: word characters, whitespace, colon. -/
def keep3 (c : Char) : Bool := isWordCh c || isPySpace c || c == ':'

/-- The keep set of step 3 as the spec words it: alphanumerics, whitespace, colon. -/
def keep3Spec (c : Char) : Bool := c.isAlphanum || isPySpace c || c == ':'

/-- NFKD decomposition of a single code point, as unicodedata.normalize applies it in
step 1 of the source. ASCII code points are NFKD-stable; a representative table of
accented letters decomposes to the base letter followed by a combining mark; other
code points are left in place (and are then removed by the ASCII filter, exactly as
encode with ignore removes them). -/
def nfkdChar (c : Char) : List Char :=
  if c.toNat < 128 then [c]
  else if c == 'é' then ['e', '́']
  else if c == 'è' then ['e', '̀']
  else if c == 'ê' then ['e', '̂']
  else if c == 'ë' then ['e', '̈']
  else if c == 'á' then ['a', '́']
  else if c == 'à' then ['a', '̀']
  else if c == 'â' then ['a', '̂']
  else if c == 'ñ' then ['n', '̃']
  else if c == 'ö' then ['o', '̈']
  else if c == 'ü' then ['u', '̈']
  else if c == 'ç' then ['c', '̧']
  else [c]

/-! ## The four normalization steps of the search route (src/app.py lines 241-256) -/

/-- Step 1: NFKD-decompose, then drop every non-ASCII code point. -/
def step1 (xs : List Char) : List Char := (xs.flatMap nfkdChar).filter isAsciiCh

/-- One left-to-right pass replacing each maximal run of separators with a single
space, as the regex substitution of step 2 does. The flag records whether the pass
is currently inside a separator run whose space was already emitted. -/
def sepAux : Bool → List Char → List Char
  | _, [] => []
  | flag, c :: cs =>
    if isSep c then (if flag then sepAux true cs else ' ' :: sepAux true cs)
    else c :: sepAux false cs

/-- Step 2: replace runs of dot, underscore, hyphen with a single space. -/
def step2 (xs : List Char) : List Char := sepAux false xs

/-- Step 3 as the source has it: keep word characters, whitespace, colon. -/
def step3 (xs : List Char) : List Char := xs.filter keep3

/-- Step 3 as the spec words it: keep alphanumerics, whitespace, colon. -/
def step3Spec (xs : List Char) : List Char := xs.filter keep3Spec

/-- One left-to-right pass replacing each maximal whitespace run with a single
space, as the regex substitution of step 4 does. -/
def wsAux : Bool → List Char → List Char
  | _, [] => []
  | flag, c :: cs =>
    if isPySpace c then (if flag then wsAux true cs else ' ' :: wsAux true cs)
    else c :: wsAux false cs

/-- Python strip: remove leading and trailing whitespace. -/
def stripWs (xs : List Char) : List Char :=
  ((xs.dropWhile isPySpace).reverse.dropWhile isPySpace).reverse

/-- Step 4: collapse whitespace runs to one space, then strip. -/
def step4 (xs : List Char) : List Char := stripWs (wsAux false xs)

/-- The whole normalization pipeline of the search route, on character lists. -/
def normalizeChars (xs : List Char) : List Char := step4 (step3 (step2 (step1 xs)))

/-- Query normalization exactly as src/app.py lines 241-256 perform it. -/
def normalize_query (s : String) : String := String.mk (normalizeChars s.toList)

/-- The normalization pipeline with step 3 as the spec words it
(alphanumerics instead of word characters). -/
def normalizeCharsSpec (xs : List Char) : List Char := step4 (step3Spec (step2 (step1 xs)))

/-- Query normalization following the wording of the spec, step for step. -/
def normalize_query_spec (s : String) : String := String.mk (normalizeCharsSpec s.toList)

/-! ## String utilities (Python startswith, endswith, in, slicing) -/

/-- Does the second list begin with the first? -/
def leadsWith : List Char → List Char → Bool
  | [], _ => true
  | _ :: _, [] => false
  | p :: ps, c :: cs => p == c && leadsWith ps cs

/-- Does the list contain the pattern as a contiguous run? -/
def hasSubL (pat : List Char) : List Char → Bool
  | [] => pat.isEmpty
  | c :: cs => leadsWith pat (c :: cs) || hasSubL pat cs

/-- Python startswith. -/
def strStarts (s pat : String) : Bool := leadsWith pat.toList s.toList

/-- Python endswith. -/
def strEnds (s pat : String) : Bool := leadsWith pat.toList.reverse s.toList.reverse

/-- Python in, on strings. -/
def hasSub (s pat : String) : Bool := hasSubL pat.toList s.toList

/-- Python slicing with 0:2, the first two characters. -/
def strTake2 (s : String) : String := String.mk (s.toList.take 2)

/-! ## urllib.parse.quote -/

/-- Upper-case hexadecimal digit for a value below 16. -/
def hexDigitCh (n : Nat) : Char := if n < 10 then Char.ofNat (48 + n) else Char.ofNat (55 + n)

/-- Percent-encoding of one byte. -/
def pctByte (b : Nat) : List Char := ['%', hexDigitCh (b / 16), hexDigitCh (b % 16)]

/-- UTF-8 encoding of one code point. -/
def utf8Bytes (c : Char) : List Nat :=
  let n := c.toNat
  if n < 128 then [n]
  else if n < 2048 then [192 + n / 64, 128 + n % 64]
  else if n < 65536 then [224 + n / 4096, 128 + n / 64 % 64, 128 + n % 64]
  else [240 + n / 262144, 128 + n / 4096 % 64, 128 + n / 64 % 64, 128 + n % 64]

/-- The characters urllib.parse.quote leaves unencoded with its default safe set:
letters, digits, underscore, dot, hyphen, tilde, and the default safe slash. -/
def quoteSafe (c : Char) : Bool :=
  c.isAlphanum || c == '_' || c == '.' || c == '-' || c == '~' || c == '/'

/-- urllib.parse.quote with the default safe set, as used in src/app.py. -/
def pyQuote (s : String) : String :=
  String.mk (s.toList.flatMap (fun c => if quoteSafe c then [c] else (utf8Bytes c).flatMap pctByte))

/-! ## Trackers and magnet handling (src/app.py lines 176-229) -/

/-- The fixed list of public trackers of src/app.py lines 176-184. -/
def PUBLIC_TRACKERS : List String :=
  [ "udp://tracker.opentrackr.org:1337/announce",
    "udp://open.tracker.cl:1337/announce",
    "udp://9.rarbg.com:2810/announce",
    "udp://tracker.openbittorrent.com:80/announce",
    "udp://opentracker.i2p.rocks:6969/announce",
    "udp://tracker.internetwarriors.net:1337/announce",
    "udp://tracker.leechers-paradise.org:6969/announce" ]

/-- The precomputed query-string fragment of tracker parameters, line 188. -/
def tracker_query : String :=
  String.intercalate "&" (PUBLIC_TRACKERS.map (fun t => "tr=" ++ pyQuote t))

/-- Tracker augmentation, lines 221-225: append the tracker fragment unless the
magnet already contains a tr= parameter. -/
def addTrackers (m : String) : String :=
  if hasSub m "tr=" then m
  else m ++ (if hasSub m "?" then "&" else "?") ++ tracker_query

/-! ## The data model of a raw backend result -/

/-- The Id key of a raw result: absent, supplied by the source, or assigned by the
enrichment pass. -/
inductive IdField
  | missing
  | given (v : String)
  | assigned (n : Nat)
  deriving DecidableEq

/-- One element of a Category list in a raw result: an int, a string, or some other
JSON value. -/
inductive CatVal
  | vInt (n : Int)
  | vStr (s : String)
  | vOther
  deriving DecidableEq

/-- The Category key of a raw result: absent (the source then defaults it to an
empty list), an int, a string, a list, or a value of any other shape. -/
inductive CatField
  | fMissing
  | fInt (n : Int)
  | fStr (s : String)
  | fList (vs : List CatVal)
  | fOther
  deriving DecidableEq

/-- A raw dict entry of the backend response, with the keys src/app.py touches.
none models a missing key. -/
structure RawRec where
  id : IdField
  tracker : Option String
  indexer : Option String
  magnetUri : Option String
  link : Option String
  infoHash : Option String
  title : Option String
  category : CatField
  deriving DecidableEq

/-- One element of the raw Results array: either a well-formed dict record or a
malformed non-dict value. -/
inductive RawEntry
  | bad (v : String)
  | record (r : RawRec)
  deriving DecidableEq

/-- Python truthiness of an optional string field. -/
def optTruthy : Option String → Bool
  | none => false
  | some s => !s.isEmpty

/-- The guard of the first two magnet branches: the field is truthy and its string
value starts with the magnet scheme. -/
def startsMagnet : Option String → Bool
  | none => false
  | some s => strStarts s "magnet:"

/-- The magnet synthesized from an info-hash on line 219 of src/app.py. -/
def synthMagnet (h t : String) : String :=
  "magnet:?xt=urn:btih:" ++ h ++ "&dn=" ++ pyQuote t

/-- Magnet resolution, lines 208-219: prefer an existing magnet field, then a link
that is itself a magnet, then synthesis from the info-hash, else nothing. -/
def resolveMagnet (r : RawRec) : Option String :=
  if startsMagnet r.magnetUri then r.magnetUri
  else if startsMagnet r.link then r.link
  else if optTruthy r.infoHash then
    some (synthMagnet (r.infoHash.getD "") (r.title.getD "download"))
  else none

/-- The per-record body of the enrichment loop, lines 196-229: default the Id from
the running index, default the Indexer from the Tracker key, resolve the magnet and
augment its trackers, storing null when no magnet could be resolved. -/
def enrichOne (idx : Nat) (r : RawRec) : RawRec :=
  { r with
    id := match r.id with | .missing => .assigned (idx + 1) | x => x,
    indexer := match r.indexer with | none => some (r.tracker.getD "Unknown") | some s => some s,
    magnetUri := (resolveMagnet r).map addTrackers }

/-- One iteration of the enrichment loop: a non-dict entry is skipped by the
isinstance guard and left in place; a dict is enriched. -/
def enrichStep (idx : Nat) : RawEntry → RawEntry
  | .bad v => .bad v
  | .record r => .record (enrichOne idx r)

/-- The enrichment loop from a given running index. -/
def enrichFrom (idx : Nat) : List RawEntry → List RawEntry
  | [] => []
  | e :: es => enrichStep idx e :: enrichFrom (idx + 1) es

/-- enrich_results of src/app.py lines 186-231, on the Results array. -/
def enrich_results (xs : List RawEntry) : List RawEntry := enrichFrom 0 xs

/-! ## The strict post-fetch category filter (src/app.py lines 296-340) -/

/-- Python isdigit on a string: nonempty and all decimal digits. -/
def pyIsDigitStr (s : String) : Bool := !s.isEmpty && s.toList.all Char.isDigit

/-- Decimal value of a digit string. -/
def digitsToNat (l : List Char) : Nat := l.foldl (fun a c => a * 10 + (c.toNat - 48)) 0

/-- Python int applied to a string: optional surrounding whitespace, optional sign,
at least one digit; anything else raises, modelled as none. -/
def pyParseInt (s : String) : Option Int :=
  let t := ((s.toList.dropWhile isPySpace).reverse.dropWhile isPySpace).reverse
  match t with
  | '+' :: ds => if !ds.isEmpty && ds.all Char.isDigit then some (Int.ofNat (digitsToNat ds)) else none
  | '-' :: ds => if !ds.isEmpty && ds.all Char.isDigit then some (-Int.ofNat (digitsToNat ds)) else none
  | ds => if !ds.isEmpty && ds.all Char.isDigit then some (Int.ofNat (digitsToNat ds)) else none

/-- List comprehension of line 311: keep the elements whose str form is all digits,
converted to int. -/
def catValToInt : CatVal → Option Int
  | .vInt n => if pyIsDigitStr (toString n) then some n else none
  | .vStr s => if pyIsDigitStr s then some (Int.ofNat (digitsToNat s.toList)) else none
  | .vOther => none

/-- The per-item matching loop of lines 319-332: exact id match, or, when the
requested category ends in 00, a match of the two leading digits. -/
def category_match (target : Int) (cl : List Int) : Bool :=
  cl.any (fun c =>
    c == target ||
    (strEnds (toString target) "00" && strStarts (toString c) (strTake2 (toString target))))

/-- Normalization of the Category key of one record, lines 306-313. error models a
raised exception (int applied to a non-numeric string); ok none models the continue
branch for a Category of unknown shape, which drops the record. -/
def catListIn : CatField → Except Unit (Option (List Int))
  | .fMissing => .ok (some [])
  | .fInt n => .ok (some [n])
  | .fStr s => match pyParseInt s with | some n => .ok (some [n]) | none => .error ()
  | .fList vs => .ok (some (vs.filterMap catValToInt))
  | .fOther => .ok none

/-- One iteration of the filter loop. A non-dict entry raises, since get is called
on it. -/
def filterStep (target : Int) : RawEntry → Except Unit (Option RawEntry)
  | .bad _ => .error ()
  | .record r =>
    match catListIn r.category with
    | .error _ => .error ()
    | .ok none => .ok none
    | .ok (some cl) => .ok (if category_match target cl then some (.record r) else none)

/-- The filter loop over the whole batch; any raised exception aborts it. -/
def runFilter (target : Int) : List RawEntry → Except Unit (List RawEntry)
  | [] => .ok []
  | e :: es =>
    match filterStep target e with
    | .error u => .error u
    | .ok oe =>
      match runFilter target es with
      | .error u => .error u
      | .ok rest => .ok (match oe with | some x => x :: rest | none => rest)

/-- The strict post-fetch category filter of lines 298-340: skipped for an empty or
all category; int conversion of the category and the filter loop run under a try
whose except keeps the full unfiltered list. -/
def strict_category_filter (category : String) (results : List RawEntry) : List RawEntry :=
  if category == "" || category == "all" then results
  else
    match pyParseInt category with
    | none => results
    | some target =>
      match runFilter target results with
      | .error _ => results
      | .ok fr => fr

/-- The pure core of the success branch of search_torrents, lines 290-346: enrich
the raw batch, then apply the strict category filter; the result is returned with
a success status. -/
def search_results (category : String) (raw : List RawEntry) : List RawEntry :=
  strict_category_filter category (enrich_results raw)

/-- The route-level query validation of lines 236-239: a missing or falsy raw q
parameter yields the 400 response (modelled as none); any other raw query proceeds
(modelled as some, and is only then normalized). -/
def search_validate : Option String → Option String
  | none => none
  | some s => if s == "" then none else some s

/-- The InfoHash field of one entry of the response. -/
def entry_hash : RawEntry → Option String
  | .bad _ => none
  | .record r => r.infoHash

/-- The Title field of one entry of the response. -/
def entry_title : RawEntry → Option String
  | .bad _ => none
  | .record r => r.title

/-! ## The relevance filter, from the spec only

src/app.py contains no relevance filtering; the following definitions follow the
wording of spec section 4.5 step 5 so that the claim about it can be stated. -/

/-- Modelled from the spec: splitting a normalized query into its space-separated
words (the tokenization of spec section 4.5 step 5, absent from src/app.py). -/
def specWordsAux : List Char → List Char → List String
  | acc, [] => if acc.isEmpty then [] else [String.mk acc.reverse]
  | acc, c :: cs =>
    if c == ' ' then
      (if acc.isEmpty then specWordsAux [] cs else String.mk acc.reverse :: specWordsAux [] cs)
    else specWordsAux (c :: acc) cs

/-- Modelled from the spec: the query tokens, the words of length at least two of
the normalized query (spec section 4.5 step 5, absent from src/app.py). -/
def spec_tokens (q : String) : List String :=
  (specWordsAux [] (normalize_query q).toList).filter (fun w => 2 ≤ w.length)

/-- Modelled from the spec: the required number of token matches, one for at most
two tokens, else the larger of one and a third of the token count. -/
def spec_required (tks : List String) : Nat :=
  if tks.length ≤ 2 then 1 else max 1 (tks.length / 3)

/-- Modelled from the spec: how many query tokens occur as substrings of the
normalized title. -/
def spec_match_count (tks : List String) (title : String) : Nat :=
  (tks.filter (fun w => hasSub (normalize_query title) w)).length

/-- Modelled from the spec: the relevance filter verdict for a candidate title; an
empty token set excludes nothing. -/
def spec_relevance_pass (q title : String) : Bool :=
  let tks := spec_tokens q
  tks.isEmpty || spec_required tks ≤ spec_match_count tks title

/-! ## Helper lemmas about the enrichment loop -/

theorem enrichFrom_length (n : Nat) (xs : List RawEntry) :
    (enrichFrom n xs).length = xs.length := by
  induction xs generalizing n with
  | nil => rfl
  | cons e es ih => simp [enrichFrom, ih]

theorem enrichFrom_getElem (n : Nat) (xs : List RawEntry) (i : Nat) :
    (enrichFrom n xs)[i]? = (xs[i]?).map (enrichStep (n + i)) := by
  induction xs generalizing n i with
  | nil => simp [enrichFrom]
  | cons e es ih =>
    cases i with
    | zero => simp [enrichFrom]
    | succ j =>
      have harith : n + 1 + j = n + (j + 1) := by omega
      simpa [enrichFrom, harith] using ih (n + 1) j

theorem enrichFrom_map_hash (n : Nat) (xs : List RawEntry) :
    (enrichFrom n xs).map entry_hash = xs.map entry_hash := by
  induction xs generalizing n with
  | nil => rfl
  | cons e es ih =>
    cases e with
    | bad v => simp [enrichFrom, enrichStep, ih]
    | record r => simp [enrichFrom, enrichStep, entry_hash, enrichOne, ih]

theorem enrichFrom_map_title (n : Nat) (xs : List RawEntry) :
    (enrichFrom n xs).map entry_title = xs.map entry_title := by
  induction xs generalizing n with
  | nil => rfl
  | cons e es ih =>
    cases e with
    | bad v => simp [enrichFrom, enrichStep, ih]
    | record r => simp [enrichFrom, enrichStep, entry_title, enrichOne, ih]

theorem strict_category_filter_skip (results : List RawEntry) :
    strict_category_filter "" results = results := rfl

/-! ## Claim theorems -/

/-- C1, counterexample: the claim states that no two items of a response share the
same non-empty InfoHash; the code performs no deduplication at all, and a concrete
batch of two distinct records with the identical non-empty hash ABC123 is returned
with both occurrences intact. -/
theorem C1_counterexample :
    (search_results ""
      [ .record ⟨.missing, none, none, none, none, some "ABC123", some "t one", .fMissing⟩,
        .record ⟨.missing, none, none, none, none, some "ABC123", some "t two", .fMissing⟩ ]).map
        entry_hash
      = [some "ABC123", some "ABC123"] ∧ ("ABC123" : String) ≠ "" := by
  exact ⟨rfl, by decide⟩

/-- C1, amended: the search response performs no deduplication by InfoHash; with no
category filter every item of the backend batch is returned, its InfoHash unchanged
and in order, so several items sharing the same non-empty hash all appear. -/
theorem C1_amended_no_dedup (raw : List RawEntry) :
    (search_results "" raw).map entry_hash = raw.map entry_hash ∧
    (search_results "" raw).length = raw.length := by
  refine ⟨?_, ?_⟩
  · simpa [search_results, strict_category_filter_skip, enrich_results] using
      enrichFrom_map_hash 0 raw
  · simpa [search_results, strict_category_filter_skip, enrich_results] using
      enrichFrom_length 0 raw

/-- C2, counterexample: the claim states that every returned candidate passes the
relevance filter of the spec; the code applies no relevance filtering, and a record
whose title zzzz contains no token of the query Matrix 1999 (so it fails the filter
of the spec) is still returned. -/
theorem C2_counterexample :
    spec_relevance_pass "Matrix 1999" "zzzz" = false ∧
    (search_results ""
      [ .record ⟨.missing, none, none, none, none, none, some "zzzz", .fMissing⟩ ]).map entry_title
      = [some "zzzz"] := by
  exact ⟨by decide, rfl⟩

/-- A successful run of the category-filter loop returns a sublist of its input:
entries are only ever dropped whole, never reordered, rewritten or synthesized. -/
theorem runFilter_sublist (target : Int) : ∀ (xs fr : List RawEntry),
    runFilter target xs = Except.ok fr → List.Sublist fr xs := by
  intro xs
  induction xs with
  | nil =>
    intro fr h
    simp only [runFilter] at h
    injection h with h2
    subst h2
    exact List.Sublist.slnil
  | cons e es ih =>
    intro fr h
    simp only [runFilter] at h
    cases hfs : filterStep target e with
    | error u =>
      rw [hfs] at h
      exact Except.noConfusion h
    | ok oe =>
      rw [hfs] at h
      cases hrf : runFilter target es with
      | error u =>
        rw [hrf] at h
        exact Except.noConfusion h
      | ok rest =>
        rw [hrf] at h
        injection h with h2
        cases e with
        | bad v => exact Except.noConfusion hfs
        | record r =>
          simp only [filterStep] at hfs
          split at hfs
          · exact Except.noConfusion hfs
          · injection hfs with h3
            subst h3
            subst h2
            exact List.Sublist.cons (RawEntry.record r) (ih rest hrf)
          · rename_i cl heq
            by_cases hm : category_match target cl = true
            · rw [if_pos hm] at hfs
              injection hfs with h3
              subst h3
              subst h2
              exact List.Sublist.cons₂ (RawEntry.record r) (ih rest hrf)
            · rw [if_neg hm] at hfs
              injection hfs with h3
              subst h3
              subst h2
              exact List.Sublist.cons (RawEntry.record r) (ih rest hrf)

/-- C2, amended: no relevance filtering is applied — the response never depends on
token overlap between the query and the candidate titles: enrichment preserves
every candidate title, and for every requested category the returned list is a
sublist of the enriched batch (the category filter only ever removes whole
entries), so each candidate surviving the category filter is returned with its
title unchanged; with no category filter every candidate is returned. -/
theorem C2_amended_no_relevance_filter (category : String) (raw : List RawEntry) :
    (enrich_results raw).map entry_title = raw.map entry_title ∧
    List.Sublist (search_results category raw) (enrich_results raw) ∧
    search_results "" raw = enrich_results raw := by
  refine ⟨enrichFrom_map_title 0 raw, ?_, strict_category_filter_skip (enrich_results raw)⟩
  show List.Sublist (strict_category_filter category (enrich_results raw)) (enrich_results raw)
  unfold strict_category_filter
  by_cases hc : (category == "" || category == "all") = true
  · rw [if_pos hc]
  · rw [if_neg hc]
    cases hp : pyParseInt category with
    | none =>
      simp only [hp]
      exact List.Sublist.refl _
    | some target =>
      simp only [hp]
      cases hrf : runFilter target (enrich_results raw) with
      | error u =>
        simp only [hrf]
        exact List.Sublist.refl _
      | ok fr =>
        simp only [hrf]
        exact runFilter_sublist target (enrich_results raw) fr hrf

/-- C4: an item with canonical id list cl is kept for a requested category t
exactly when some id equals t, or t ends in 00 and some id begins with the two
leading characters of t; in particular an item with id 2045 matches requested 2000
and 2045 but not 2040. -/
theorem C4_category_matching :
    (∀ (t : Int) (cl : List Int),
      category_match t cl = true ↔
        ((∃ c ∈ cl, c = t) ∨
         (strEnds (toString t) "00" = true ∧
          ∃ c ∈ cl, strStarts (toString c) (strTake2 (toString t)) = true))) ∧
    category_match 2000 [2045] = true ∧
    category_match 2045 [2045] = true ∧
    category_match 2040 [2045] = false := by
  refine ⟨?_, by decide, by decide, by decide⟩
  intro t cl
  simp only [category_match, List.any_eq_true, Bool.or_eq_true, Bool.and_eq_true, beq_iff_eq]
  constructor
  · rintro ⟨c, hc, h | ⟨h1, h2⟩⟩
    · exact Or.inl ⟨c, hc, h⟩
    · exact Or.inr ⟨h1, c, hc, h2⟩
  · rintro (⟨c, hc, h⟩ | ⟨h1, c, hc, h2⟩)
    · exact ⟨c, hc, Or.inl h⟩
    · exact ⟨c, hc, Or.inr ⟨h1, h2⟩⟩

/-- C4, witness: the theorem applied to the item id 2045 and the parent category
2000 of the spec example. -/
theorem C4_category_matching_witness :
    (∃ c ∈ [(2045 : Int)], c = 2045) ∨
      (strEnds (toString (2045 : Int)) "00" = true ∧
       ∃ c ∈ [(2045 : Int)], strStarts (toString c) (strTake2 (toString (2045 : Int))) = true) :=
  (C4_category_matching.1 2045 [2045]).mp C4_category_matching.2.2.1

/-- C5: magnet resolution follows the stated priority: an existing magnet-scheme
MagnetUri field first, else a magnet-scheme Link field, else synthesis from the
info-hash with a URL-encoded display name, else no magnet is stored at all. -/
theorem C5_magnet_resolution_priority (r : RawRec) :
    (startsMagnet r.magnetUri = true → resolveMagnet r = r.magnetUri) ∧
    (startsMagnet r.magnetUri = false → startsMagnet r.link = true →
      resolveMagnet r = r.link) ∧
    (startsMagnet r.magnetUri = false → startsMagnet r.link = false →
      optTruthy r.infoHash = true →
      resolveMagnet r = some (synthMagnet (r.infoHash.getD "") (r.title.getD "download"))) ∧
    (startsMagnet r.magnetUri = false → startsMagnet r.link = false →
      optTruthy r.infoHash = false →
      resolveMagnet r = none ∧ ∀ i, (enrichOne i r).magnetUri = none) := by
  refine ⟨?_, ?_, ?_, ?_⟩ <;> intros <;> simp_all [resolveMagnet, enrichOne]

/-- C5, witness: a record with no magnet and no link but InfoHash abc123 and Title
Foo resolves to the synthesized magnet, and the stored magnet of the enriched
record starts with the urn:btih prefix for abc123 and contains the encoded dn=Foo. -/
theorem C5_magnet_resolution_priority_witness :
    resolveMagnet ⟨.missing, none, none, none, none, some "abc123", some "Foo", .fMissing⟩
      = some "magnet:?xt=urn:btih:abc123&dn=Foo" ∧
    strStarts
      ((enrichOne 0 ⟨.missing, none, none, none, none, some "abc123", some "Foo", .fMissing⟩).magnetUri.getD "")
      "magnet:?xt=urn:btih:abc123" = true ∧
    hasSub
      ((enrichOne 0 ⟨.missing, none, none, none, none, some "abc123", some "Foo", .fMissing⟩).magnetUri.getD "")
      "dn=Foo" = true := by
  have h :=
    (C5_magnet_resolution_priority
      ⟨.missing, none, none, none, none, some "abc123", some "Foo", .fMissing⟩).2.2.1
      rfl rfl rfl
  exact ⟨h.trans (by decide), by decide, by decide⟩

/-- C6, counterexample: a raw query of three exclamation marks normalizes to the
empty string, yet the route does not reject it with 400: the emptiness check runs
on the raw text only, before normalization. -/
theorem C6_counterexample :
    search_validate (some "!!!") = some "!!!" ∧ normalize_query "!!!" = "" := ⟨rfl, rfl⟩

/-- C6, amended: the search route returns the 400 validation error exactly when the
raw q parameter is missing or the empty string; a nonempty raw query that
normalizes to the empty string is not rejected and proceeds upstream. -/
theorem C6_amended_validation (q : Option String) :
    search_validate q = none ↔ (q = none ∨ q = some "") := by
  cases q with
  | none => simp [search_validate]
  | some s =>
    by_cases h : s = ""
    · subst h; simp [search_validate]
    · simp [search_validate, h]

/-- C6, witness: the amended theorem applied to the missing query. -/
theorem C6_amended_validation_witness : search_validate none = none :=
  (C6_amended_validation none).mpr (Or.inl rfl)

/-- C7: tracker augmentation leaves a magnet containing tr= entirely unchanged, and
otherwise appends exactly the fixed URL-encoded tracker fragment, in which each
public tracker occurs as a tr= parameter. -/
theorem C7_tracker_augmentation (m : String) :
    (hasSub m "tr=" = true → addTrackers m = m) ∧
    (hasSub m "tr=" = false →
      addTrackers m = m ++ ((if hasSub m "?" then "&" else "?") ++ tracker_query)) ∧
    (∀ t ∈ PUBLIC_TRACKERS, hasSub tracker_query ("tr=" ++ pyQuote t) = true) := by
  refine ⟨fun h => by simp [addTrackers, h], fun h => by simp [addTrackers, h, String.append_assoc], by decide⟩

/-- C7, witness: a magnet already carrying a tr= parameter is returned unchanged,
and one without any gains the tracker fragment. -/
theorem C7_tracker_augmentation_witness :
    addTrackers "magnet:?xt=urn:btih:a&tr=x" = "magnet:?xt=urn:btih:a&tr=x" ∧
    addTrackers "magnet:?xt=urn:btih:a"
      = "magnet:?xt=urn:btih:a" ++ ("&" ++ tracker_query) := by
  refine ⟨(C7_tracker_augmentation _).1 (by decide), ?_⟩
  have h := (C7_tracker_augmentation "magnet:?xt=urn:btih:a").2.1 (by decide)
  simpa using h

/-- C8: enrichment skips each malformed non-dict entry individually, leaving it in
place unnormalized, while every well-formed record of the batch is still enriched
at its own index; the pass is total, so one bad entry never aborts the batch. -/
theorem C8_malformed_entries_skipped (xs : List RawEntry) :
    (enrich_results xs).length = xs.length ∧
    (∀ (i : Nat) (v : String),
      xs[i]? = some (RawEntry.bad v) → (enrich_results xs)[i]? = some (RawEntry.bad v)) ∧
    (∀ (i : Nat) (r : RawRec), xs[i]? = some (RawEntry.record r) →
      (enrich_results xs)[i]? = some (RawEntry.record (enrichOne i r))) := by
  refine ⟨enrichFrom_length 0 xs, ?_, ?_⟩
  · intro i v h
    rw [enrich_results, enrichFrom_getElem, h]
    rfl
  · intro i r h
    rw [enrich_results, enrichFrom_getElem, h]
    simp [enrichStep]

/-- C8, witness: a batch of one malformed entry followed by one record: the bad
entry survives untouched at index 0 and the record is enriched at index 1. -/
theorem C8_malformed_entries_skipped_witness :
    (enrich_results [RawEntry.bad "x",
      RawEntry.record ⟨.missing, none, none, none, none, none, some "ok", .fMissing⟩]).length = 2 ∧
    (enrich_results [RawEntry.bad "x",
      RawEntry.record ⟨.missing, none, none, none, none, none, some "ok", .fMissing⟩])[0]?
      = some (RawEntry.bad "x") ∧
    (enrich_results [RawEntry.bad "x",
      RawEntry.record ⟨.missing, none, none, none, none, none, some "ok", .fMissing⟩])[1]?
      = some (RawEntry.record (enrichOne 1 ⟨.missing, none, none, none, none, none, some "ok", .fMissing⟩)) := by
  refine ⟨(C8_malformed_entries_skipped _).1, ?_, ?_⟩
  · exact (C8_malformed_entries_skipped _).2.1 0 "x" rfl
  · exact (C8_malformed_entries_skipped _).2.2 1 _ rfl

/-- C10: whenever the strict post-fetch category filter raises — the category
parameter is not parseable as an int, as with undefined, or the filter loop raises
on some entry — the route returns the full unfiltered enriched list with the
success status rather than an error or an empty list. -/
theorem C10_filter_error_returns_full_list (category : String) (raw : List RawEntry) (t : Int) :
    (pyParseInt category = none → search_results category raw = enrich_results raw) ∧
    (category ≠ "" → category ≠ "all" → pyParseInt category = some t →
      runFilter t (enrich_results raw) = .error () →
      search_results category raw = enrich_results raw) := by
  constructor
  · intro h
    unfold search_results strict_category_filter
    by_cases hc : (category == "" || category == "all") = true
    · simp [hc]
    · simp only [Bool.not_eq_true] at hc
      simp [hc, h]
  · intro h1 h2 h3 h4
    have hc : (category == "" || category == "all") = false := by
      simp [h1, h2]
    unfold search_results strict_category_filter
    simp [hc, h3, h4]

/-- C10, witness: the category undefined does not parse, and a batch containing a
non-dict entry makes the filter loop raise for the parseable category 2000; both
requests return the full enriched list. -/
theorem C10_filter_error_returns_full_list_witness :
    search_results "undefined"
        [RawEntry.record ⟨.missing, none, none, none, none, none, some "t", .fInt 2045⟩]
      = enrich_results [RawEntry.record ⟨.missing, none, none, none, none, none, some "t", .fInt 2045⟩] ∧
    search_results "2000" [RawEntry.bad "oops"] = enrich_results [RawEntry.bad "oops"] := by
  constructor
  · exact (C10_filter_error_returns_full_list "undefined" _ 0).1 (by decide)
  · exact (C10_filter_error_returns_full_list "2000" _ 2000).2
      (by decide) (by decide) (by decide) rfl

/-! ## Lemmas about the separator pass -/

theorem sepAux_no_sep (xs : List Char) {c : Char} (hc : isSep c = true) :
    ∀ b : Bool, c ∉ sepAux b xs := by
  induction xs with
  | nil => intro b; simp [sepAux]
  | cons d ds ih =>
    intro b
    by_cases hd : isSep d = true
    · cases b with
      | false =>
        simp only [sepAux, hd, if_true]
        intro hmem
        rcases List.mem_cons.mp hmem with h | h
        · subst h; exact absurd hc (by decide)
        · exact ih true h
      | true =>
        simp only [sepAux, hd, if_true]
        exact ih true
    · rw [Bool.not_eq_true] at hd
      simp only [sepAux, hd, Bool.false_eq_true, if_false]
      intro hmem
      rcases List.mem_cons.mp hmem with h | h
      · subst h; rw [hd] at hc; cases hc
      · exact ih false h

theorem mem_sepAux : ∀ (b : Bool) (xs : List Char) (c : Char),
    c ∈ sepAux b xs → c = ' ' ∨ c ∈ xs := by
  intro b xs
  induction xs generalizing b with
  | nil => intro c h; simp [sepAux] at h
  | cons d ds ih =>
    intro c h
    simp only [sepAux] at h
    split at h
    · split at h
      · rcases ih true c h with h1 | h1
        · exact Or.inl h1
        · exact Or.inr (List.mem_cons_of_mem _ h1)
      · rcases List.mem_cons.mp h with h1 | h1
        · exact Or.inl h1
        · rcases ih true c h1 with h2 | h2
          · exact Or.inl h2
          · exact Or.inr (List.mem_cons_of_mem _ h2)
    · rcases List.mem_cons.mp h with h1 | h1
      · subst h1; exact Or.inr (List.mem_cons_self _ _)
      · rcases ih false c h1 with h2 | h2
        · exact Or.inl h2
        · exact Or.inr (List.mem_cons_of_mem _ h2)

theorem sepAux_id : ∀ (l : List Char), (∀ c ∈ l, isSep c = false) → ∀ b, sepAux b l = l := by
  intro l
  induction l with
  | nil => intro _ b; rfl
  | cons d ds ih =>
    intro h b
    have hd : isSep d = false := h d (List.mem_cons_self d ds)
    simp only [sepAux, hd, Bool.false_eq_true, if_false]
    rw [ih (fun c hc => h c (List.mem_cons_of_mem d hc)) false]

/-- Step 3 of the source and of the spec agree on every character other than the
underscore. -/
theorem keep3_eq_keep3Spec {c : Char} (h : c ≠ '_') : keep3 c = keep3Spec c := by
  have h2 : (c == '_') = false := beq_eq_false_iff_ne.mpr h
  simp [keep3, keep3Spec, isWordCh, h2]

/-- C3: query normalization is exactly the four-step composition the spec states,
with the steps in that order (the word class of the regex in step 3 also keeps the
underscore, but step 2 has already replaced every underscore by a space, so the two
compositions agree on every input); it is a total function, and the empty input
yields the empty output. -/
theorem C3_normalizer_matches_spec_steps :
    (∀ s : String, normalize_query s = normalize_query_spec s) ∧ normalize_query "" = "" := by
  constructor
  · intro s
    unfold normalize_query normalize_query_spec normalizeChars normalizeCharsSpec step3 step3Spec step2
    have hfc : List.filter keep3 (sepAux false (step1 s.toList))
        = List.filter keep3Spec (sepAux false (step1 s.toList)) := by
      apply List.filter_congr
      intro c hc
      apply keep3_eq_keep3Spec
      intro he
      subst he
      exact sepAux_no_sep (step1 s.toList) (by decide) false hc
    rw [hfc]
  · rfl

/-! ## Lemmas about the whitespace pass and strip, towards idempotence -/

/-- The head of the list, when present, is not whitespace. -/
def HeadNonWs : List Char → Prop
  | [] => True
  | c :: _ => isPySpace c = false

/-- No two adjacent characters are both whitespace. -/
def NoTwo : List Char → Prop
  | [] => True
  | c :: cs => (isPySpace c = true → HeadNonWs cs) ∧ NoTwo cs

theorem mem_wsAux : ∀ (b : Bool) (xs : List Char) (c : Char),
    c ∈ wsAux b xs → c = ' ' ∨ c ∈ xs := by
  intro b xs
  induction xs generalizing b with
  | nil => intro c h; simp [wsAux] at h
  | cons d ds ih =>
    intro c h
    simp only [wsAux] at h
    split at h
    · split at h
      · rcases ih true c h with h1 | h1
        · exact Or.inl h1
        · exact Or.inr (List.mem_cons_of_mem _ h1)
      · rcases List.mem_cons.mp h with h1 | h1
        · exact Or.inl h1
        · rcases ih true c h1 with h2 | h2
          · exact Or.inl h2
          · exact Or.inr (List.mem_cons_of_mem _ h2)
    · rcases List.mem_cons.mp h with h1 | h1
      · subst h1; exact Or.inr (List.mem_cons_self _ _)
      · rcases ih false c h1 with h2 | h2
        · exact Or.inl h2
        · exact Or.inr (List.mem_cons_of_mem _ h2)

theorem wsAux_only_space : ∀ (b : Bool) (xs : List Char) (c : Char),
    c ∈ wsAux b xs → isPySpace c = true → c = ' ' := by
  intro b xs
  induction xs generalizing b with
  | nil => intro c h; simp [wsAux] at h
  | cons d ds ih =>
    intro c h hc
    simp only [wsAux] at h
    split at h
    · split at h
      · exact ih true c h hc
      · rcases List.mem_cons.mp h with h1 | h1
        · exact h1
        · exact ih true c h1 hc
    · next hd =>
        rw [Bool.not_eq_true] at hd
        rcases List.mem_cons.mp h with h1 | h1
        · subst h1; rw [hd] at hc; cases hc
        · exact ih false c h1 hc

theorem wsAux_shape (xs : List Char) :
    (∀ b, NoTwo (wsAux b xs)) ∧ HeadNonWs (wsAux true xs) := by
  induction xs with
  | nil => exact ⟨fun _ => trivial, trivial⟩
  | cons d ds ih =>
    by_cases hd : isPySpace d = true
    · constructor
      · intro b
        cases b with
        | true => simpa [wsAux, hd] using ih.1 true
        | false =>
          simp only [wsAux, hd, if_true]
          exact ⟨fun _ => ih.2, ih.1 true⟩
      · simpa [wsAux, hd] using ih.2
    · rw [Bool.not_eq_true] at hd
      constructor
      · intro b
        simp only [wsAux, hd, Bool.false_eq_true, if_false]
        refine ⟨fun hcontra => ?_, ih.1 false⟩
        rw [hd] at hcontra
        cases hcontra
      · simp only [wsAux, hd, Bool.false_eq_true, if_false]
        exact hd

theorem wsAux_id (l : List Char) :
    (∀ c ∈ l, isPySpace c = true → c = ' ') → NoTwo l →
    wsAux false l = l ∧ (HeadNonWs l → wsAux true l = l) := by
  induction l with
  | nil => intro _ _; exact ⟨rfl, fun _ => rfl⟩
  | cons d ds ih =>
    intro hsp hnt
    obtain ⟨h1, h2⟩ := hnt
    have hspds : ∀ c ∈ ds, isPySpace c = true → c = ' ' :=
      fun c hc => hsp c (List.mem_cons_of_mem d hc)
    by_cases hd : isPySpace d = true
    · have hdsp : d = ' ' := hsp d (List.mem_cons_self d ds) hd
      have hds : wsAux true ds = ds := (ih hspds h2).2 (h1 hd)
      constructor
      · simp only [wsAux, hd, if_true, Bool.false_eq_true, if_false]
        rw [hds, hdsp]
      · intro hh
        have : isPySpace d = false := hh
        rw [this] at hd; cases hd
    · rw [Bool.not_eq_true] at hd
      have hds : wsAux false ds = ds := (ih hspds h2).1
      constructor
      · simp only [wsAux, hd, Bool.false_eq_true, if_false]
        rw [hds]
      · intro _
        simp only [wsAux, hd, Bool.false_eq_true, if_false]
        rw [hds]

theorem headNonWs_dropWhile (l : List Char) : HeadNonWs (l.dropWhile isPySpace) := by
  induction l with
  | nil => trivial
  | cons d ds ih =>
    by_cases hd : isPySpace d = true
    · simpa [List.dropWhile_cons, hd] using ih
    · rw [Bool.not_eq_true] at hd
      simp only [List.dropWhile_cons, hd, Bool.false_eq_true, if_false]
      exact hd

theorem dropWhile_id_of_headNonWs {l : List Char} (h : HeadNonWs l) :
    l.dropWhile isPySpace = l := by
  cases l with
  | nil => rfl
  | cons d ds =>
    have hd : isPySpace d = false := h
    simp [List.dropWhile_cons, hd]

theorem stripWs_eq_self {l : List Char} (h1 : HeadNonWs l) (h2 : HeadNonWs l.reverse) :
    stripWs l = l := by
  unfold stripWs
  rw [dropWhile_id_of_headNonWs h1, dropWhile_id_of_headNonWs h2, List.reverse_reverse]

theorem headNonWs_append_left (l1 l2 : List Char) (h : HeadNonWs (l1 ++ l2)) :
    HeadNonWs l1 := by
  cases l1 with
  | nil => trivial
  | cons d ds => exact h

theorem noTwo_append_left (l1 l2 : List Char) : NoTwo (l1 ++ l2) → NoTwo l1 := by
  induction l1 with
  | nil => intro _; trivial
  | cons d ds ih =>
    intro h
    obtain ⟨ha, hb⟩ := h
    exact ⟨fun hd => headNonWs_append_left ds l2 (ha hd), ih hb⟩

theorem noTwo_append_right (l1 l2 : List Char) : NoTwo (l1 ++ l2) → NoTwo l2 := by
  induction l1 with
  | nil => intro h; exact h
  | cons d ds ih => intro h; exact ih h.2

theorem stripWs_facts (l : List Char) :
    (∀ c ∈ stripWs l, c ∈ l) ∧
    (NoTwo l → NoTwo (stripWs l)) ∧
    HeadNonWs (stripWs l) ∧
    HeadNonWs (stripWs l).reverse := by
  have hu : List.takeWhile isPySpace l ++ List.dropWhile isPySpace l = l :=
    List.takeWhile_append_dropWhile isPySpace l
  have hdecomp :
      List.takeWhile isPySpace (List.dropWhile isPySpace l).reverse ++
        List.dropWhile isPySpace (List.dropWhile isPySpace l).reverse
      = (List.dropWhile isPySpace l).reverse :=
    List.takeWhile_append_dropWhile isPySpace (List.dropWhile isPySpace l).reverse
  have huB : List.dropWhile isPySpace l
      = stripWs l ++ (List.takeWhile isPySpace (List.dropWhile isPySpace l).reverse).reverse := by
    conv_lhs => rw [← List.reverse_reverse (List.dropWhile isPySpace l), ← hdecomp]
    rw [List.reverse_append]
    rfl
  refine ⟨?_, ?_, ?_, ?_⟩
  · intro c hc
    have hcu : c ∈ List.dropWhile isPySpace l := by
      rw [huB]; exact List.mem_append.mpr (Or.inl hc)
    rw [← hu]
    exact List.mem_append.mpr (Or.inr hcu)
  · intro hl
    have h1 : NoTwo (List.dropWhile isPySpace l) := by
      apply noTwo_append_right (List.takeWhile isPySpace l)
      rw [hu]; exact hl
    apply noTwo_append_left (stripWs l)
      ((List.takeWhile isPySpace (List.dropWhile isPySpace l).reverse).reverse)
    rw [← huB]
    exact h1
  · apply headNonWs_append_left (stripWs l)
      ((List.takeWhile isPySpace (List.dropWhile isPySpace l).reverse).reverse)
    rw [← huB]
    exact headNonWs_dropWhile l
  · show HeadNonWs ((List.dropWhile isPySpace (List.dropWhile isPySpace l).reverse).reverse).reverse
    rw [List.reverse_reverse]
    exact headNonWs_dropWhile (List.dropWhile isPySpace l).reverse

theorem step4_idem (w : List Char) : step4 (step4 w) = step4 w := by
  have hsp : ∀ c ∈ wsAux false w, isPySpace c = true → c = ' ' :=
    fun c hc => wsAux_only_space false w c hc
  have hnt : NoTwo (wsAux false w) := (wsAux_shape w).1 false
  obtain ⟨hmem, hNT, hH1, hH2⟩ := stripWs_facts (wsAux false w)
  have hspB : ∀ c ∈ step4 w, isPySpace c = true → c = ' ' :=
    fun c hc hws => hsp c (hmem c hc) hws
  have hntB : NoTwo (step4 w) := hNT hnt
  have hid : wsAux false (step4 w) = step4 w := (wsAux_id (step4 w) hspB hntB).1
  show stripWs (wsAux false (step4 w)) = step4 w
  rw [hid]
  exact stripWs_eq_self hH1 hH2

/-! ## Identity of the first three steps on canonical output, and idempotence -/

theorem flatMap_nfkd_id {l : List Char} (h : ∀ c ∈ l, c.toNat < 128) :
    l.flatMap nfkdChar = l := by
  induction l with
  | nil => rfl
  | cons d ds ih =>
    have hd : nfkdChar d = [d] := by
      unfold nfkdChar
      rw [if_pos (h d (List.mem_cons_self d ds))]
    rw [List.flatMap_cons, hd, List.singleton_append,
      ih (fun c hc => h c (List.mem_cons_of_mem d hc))]

theorem filter_ascii_id {l : List Char} (h : ∀ c ∈ l, c.toNat < 128) :
    l.filter isAsciiCh = l := by
  apply List.filter_eq_self.mpr
  intro a ha
  exact decide_eq_true (h a ha)

/-- Every character of a normalized query is ASCII, is not a separator, and is kept
by step 3. -/
theorem normalizeChars_mem (xs : List Char) :
    ∀ c ∈ normalizeChars xs, c.toNat < 128 ∧ isSep c = false ∧ keep3 c = true := by
  intro c hc
  obtain ⟨hmemS, _, _, _⟩ := stripWs_facts (wsAux false (step3 (step2 (step1 xs))))
  have h1 : c ∈ wsAux false (step3 (step2 (step1 xs))) := hmemS c hc
  rcases mem_wsAux false _ c h1 with hsp | h2
  · subst hsp
    exact ⟨by decide, by decide, by decide⟩
  · have hk : keep3 c = true := List.of_mem_filter h2
    have h3 : c ∈ step2 (step1 xs) := List.mem_of_mem_filter h2
    have hns : isSep c = false := by
      by_contra hcon
      rw [Bool.not_eq_false] at hcon
      exact sepAux_no_sep (step1 xs) hcon false h3
    rcases mem_sepAux false _ c h3 with hsp | h4
    · subst hsp
      exact ⟨by decide, hns, hk⟩
    · have hascii : isAsciiCh c = true := List.of_mem_filter h4
      exact ⟨of_decide_eq_true hascii, hns, hk⟩

/-- C9: query normalization is idempotent; normalizing an already-normalized query
returns it unchanged. -/
theorem C9_normalize_idempotent (s : String) :
    normalize_query (normalize_query s) = normalize_query s := by
  unfold normalize_query
  congr 1
  show normalizeChars (normalizeChars s.toList) = normalizeChars s.toList
  have hmem := normalizeChars_mem s.toList
  have h1 : step1 (normalizeChars s.toList) = normalizeChars s.toList := by
    unfold step1
    rw [flatMap_nfkd_id (fun c hc => (hmem c hc).1)]
    exact filter_ascii_id (fun c hc => (hmem c hc).1)
  have h2 : step2 (step1 (normalizeChars s.toList)) = normalizeChars s.toList := by
    rw [h1]
    exact sepAux_id (normalizeChars s.toList) (fun c hc => (hmem c hc).2.1) false
  have h3 : step3 (step2 (step1 (normalizeChars s.toList))) = normalizeChars s.toList := by
    rw [h2]
    exact List.filter_eq_self.mpr (fun c hc => (hmem c hc).2.2)
  show step4 (step3 (step2 (step1 (normalizeChars s.toList)))) = normalizeChars s.toList
  rw [h3]
  show step4 (step4 (step3 (step2 (step1 s.toList)))) = normalizeChars s.toList
  exact step4_idem (step3 (step2 (step1 s.toList)))
